import Mathlib

/-!
Shallow embedding of the audio-loudness analyzer from
`src/core/wasm/src/lib.rs` (Rust, compiled to WebAssembly).

Modelling choices:
* An `f32`/`f64` value is modelled as `Option ℝ`: `some r` is a finite
  value idealized as the exact real `r`, and `none` is IEEE-754 NaN.
  Arithmetic propagates `none`, `sqrt` of a negative value is `none`,
  `log10` of a non-positive value is `none`, and `fmaxRust` implements
  the NaN-ignoring Rust `f32::max`.  Rounding and overflow to infinity are
  idealized away (operations on finite values are exact).
* Rust `usize` lengths are modelled as `ℕ`.  The `num_chunks`
  computation `(total + chunk - 1) / chunk` in the source is only used as
  a capacity hint for `Vec::with_capacity`, which has no observable
  effect on the produced values, so the model omits the allocation hint.
* `Float32Array`/`Vec<f32>`/slices are all modelled as `List F`.
-/

/-- A floating-point value: `some r` is the finite value `r` (idealized as
an exact real), `none` is NaN. -/
abbrev F : Type := Option ℝ

/-- Source constant `MIN_RMS: f32 = 1.0e-10`: the epsilon floor applied
before the logarithm; numerically `20*log10(1e-10) = -200`. -/
def MIN_RMS : ℝ := 1e-10

/-- Floating-point addition: NaN-propagating, exact on finite values. -/
def fadd : F → F → F
  | some a, some b => some (a + b)
  | _, _ => none

/-- Floating-point multiplication: NaN-propagating, exact on finite values. -/
def fmul : F → F → F
  | some a, some b => some (a * b)
  | _, _ => none

/-- Floating-point division (used only with a nonzero natural divisor in the
source): NaN-propagating. -/
noncomputable def fdiv : F → F → F
  | some a, some b => some (a / b)
  | _, _ => none

/-- IEEE square root: NaN on NaN and on negative inputs, exact otherwise. -/
noncomputable def fsqrt : F → F
  | some a => if 0 ≤ a then some (Real.sqrt a) else none
  | none => none

/-- IEEE base-10 logarithm, restricted to the positive inputs the program
reaches (the argument is always clamped to at least `MIN_RMS` first):
non-positive inputs and NaN give NaN in the model. -/
noncomputable def flog10 : F → F
  | some a => if 0 < a then some (Real.logb 10 a) else none
  | none => none

/-- Rust `f32::max`: ignores NaN — if one argument is NaN the other is
returned; on finite values it is the ordinary maximum. -/
def fmaxRust : F → F → F
  | none, b => b
  | some a, none => some a
  | some a, some b => some (max a b)

/-- Source function `calculate_rms(chunk: &[f32]) -> f32`: `0.0` for an empty chunk,
otherwise the square root of the mean of the squares, with the sum of
squares and the division performed on the wide (`f64`) values and the
result narrowed back afterwards (widening/narrowing is the identity in
this exact-real model). -/
noncomputable def calculate_rms (chunk : List F) : F :=
  if chunk.isEmpty then some 0
  else
    let sum_sq : F := (chunk.map (fun sample => fmul sample sample)).foldl fadd (some 0)
    fsqrt (fdiv sum_sq (some (chunk.length : ℝ)))

/-- Source function `rms_to_dbfs(rms: f32) -> f32`: clamp with
`rms.max(MIN_RMS)`, then `20.0 * rms_clamped.log10()`. -/
noncomputable def rms_to_dbfs (rms : F) : F :=
  let rms_clamped := fmaxRust rms (some MIN_RMS)
  fmul (some 20) (flog10 rms_clamped)

/-- Rust `slice::chunks_exact(c)` collected to a list: the consecutive
full chunks of length exactly `c`; trailing elements that do not fill a
chunk are not produced (they are the `remainder`). -/
def chunksExact (c : ℕ) (l : List F) : List (List F) :=
  if h : c = 0 ∨ l.length < c then []
  else l.take c :: chunksExact c (l.drop c)
termination_by l.length
decreasing_by
  simp only [List.length_drop]
  omega

/-- The `remainder()` of `slice::chunks_exact(c)`: the trailing
`l.length % c` elements left after the full chunks. -/
def chunksRemainder (c : ℕ) (l : List F) : List F :=
  l.drop (l.length / c * c)

/-- Source function `analyze_audio_rms(pcm_data, chunk_size_samples)`:
guard the two edge cases, then push one dBFS value per full chunk, in
order, followed by one value for the non-empty remainder. -/
noncomputable def analyze_audio_rms (pcm_data : List F) (chunk_size_samples : ℕ) : List F :=
  let pcm_vec : List F := pcm_data
  let total_samples := pcm_vec.length
  if total_samples = 0 ∨ chunk_size_samples = 0 then []
  else
    let full := (chunksExact chunk_size_samples pcm_vec).map
      (fun chunk => rms_to_dbfs (calculate_rms chunk))
    let remainder := chunksRemainder chunk_size_samples pcm_vec
    if remainder.isEmpty then full
    else full ++ [rms_to_dbfs (calculate_rms remainder)]

/-- The partition of the buffer described by the spec: chunk `i` is the
block of (up to) `c` samples starting at offset `i * c`, and there are
`⌈length / c⌉ = (length + c - 1) / c` chunks. -/
def chunkList (samples : List F) (c : ℕ) : List (List F) :=
  (List.range ((samples.length + c - 1) / c)).map
    (fun i => (samples.drop (i * c)).take c)

/-- Modelled from the spec: the RMS Reducer contract of §4.1, stated over
exact reals — `0.0` if `N = 0`, otherwise `sqrt((1/N) * Σ sampleᵢ²)`. -/
noncomputable def rmsSpec (chunk : List ℝ) : ℝ :=
  if chunk.length = 0 then 0
  else Real.sqrt ((chunk.map (fun s => s ^ 2)).sum / chunk.length)

/-! ### Basic facts about the floating-point model -/

theorem MIN_RMS_pos : 0 < MIN_RMS := by norm_num [MIN_RMS]

theorem foldl_fadd_map_some (m : List ℝ) (a : ℝ) :
    (m.map some).foldl fadd (some a) = some (a + m.sum) := by
  induction m generalizing a with
  | nil => simp [fadd]
  | cons x xs ih => simp [fadd, ih, add_assoc]

theorem calculate_rms_map_some (l : List ℝ) :
    calculate_rms (l.map some) = some (rmsSpec l) := by
  cases l with
  | nil => simp [calculate_rms, rmsSpec]
  | cons x xs =>
    have hne : ((x :: xs).map some).isEmpty = false := by simp
    rw [calculate_rms, hne]
    simp only [Bool.false_eq_true, if_false]
    have hmap : ((x :: xs).map some).map (fun sample => fmul sample sample)
        = ((x :: xs).map (fun s => s ^ 2)).map some := by
      simp [List.map_map, fmul, Function.comp, sq]
    rw [hmap, foldl_fadd_map_some, zero_add]
    have hlen : ((x :: xs).map some).length = (x :: xs).length := by simp
    rw [hlen, fdiv]
    have hnonneg : 0 ≤ ((x :: xs).map (fun s => s ^ 2)).sum / ((x :: xs).length : ℝ) := by
      apply div_nonneg
      · apply List.sum_nonneg
        intro y hy
        simp only [List.mem_map] at hy
        obtain ⟨s, _, hs⟩ := hy
        rw [← hs]
        positivity
      · positivity
    rw [fsqrt, if_pos hnonneg, rmsSpec, if_neg (by simp)]

theorem rms_to_dbfs_some_eq (a : ℝ) :
    rms_to_dbfs (some a) = some (20 * Real.logb 10 (max a MIN_RMS)) := by
  have hpos : 0 < max a MIN_RMS := lt_of_lt_of_le MIN_RMS_pos (le_max_right a MIN_RMS)
  rw [rms_to_dbfs]
  simp only [fmaxRust, flog10, if_pos hpos, fmul]

theorem rms_to_dbfs_none_eq :
    rms_to_dbfs none = some (20 * Real.logb 10 MIN_RMS) := by
  rw [rms_to_dbfs]
  simp only [fmaxRust, flog10, if_pos MIN_RMS_pos, fmul]

theorem twenty_logb_MIN_RMS_eq : 20 * Real.logb 10 MIN_RMS = -200 := by
  have h1 : MIN_RMS = (10 : ℝ) ^ (-10 : ℤ) := by
    rw [zpow_neg]
    norm_num [MIN_RMS]
  have hl : Real.log 10 ≠ 0 := ne_of_gt (Real.log_pos (by norm_num))
  have h2 : Real.logb 10 MIN_RMS = -10 := by
    rw [h1, ← Real.log_div_log, Real.log_zpow]
    field_simp
  rw [h2]
  norm_num

/-! ### The partition produced by `chunks_exact` plus remainder -/

theorem drop_drop_take_chunk (s : List F) (c i : ℕ) :
    ((s.drop c).drop (i * c)).take c = (s.drop ((i + 1) * c)).take c := by
  rw [List.drop_drop]
  have h : c + i * c = (i + 1) * c := by ring
  rw [h]

theorem chunksExact_eq (c : ℕ) (hc : 1 ≤ c) (l : List F) :
    chunksExact c l
      = (List.range (l.length / c)).map (fun i => (l.drop (i * c)).take c) := by
  induction l using chunksExact.induct c with
  | case1 l h =>
    rw [chunksExact, dif_pos h]
    rcases h with h | h
    · omega
    · rw [Nat.div_eq_of_lt h]
      simp
  | case2 l h ih =>
    push_neg at h
    obtain ⟨hc0, hcl⟩ := h
    rw [chunksExact, dif_neg (by push_neg; exact ⟨hc0, hcl⟩), ih]
    have hdiv : l.length / c = (l.drop c).length / c + 1 := by
      rw [List.length_drop]
      exact Nat.div_eq_sub_div (by omega) hcl
    rw [hdiv, List.range_succ_eq_map, List.map_cons, List.map_map]
    congr 1
    · simp
    · apply List.map_congr_left
      intro i _
      simp only [Function.comp]
      rw [drop_drop_take_chunk]

theorem chunksExact_length (c : ℕ) (hc : 1 ≤ c) (l : List F) :
    (chunksExact c l).length = l.length / c := by
  rw [chunksExact_eq c hc l]
  simp

theorem chunksRemainder_length (c : ℕ) (hc : 1 ≤ c) (l : List F) :
    (chunksRemainder c l).length = l.length % c := by
  rw [chunksRemainder, List.length_drop]
  have hd : l.length / c * c + l.length % c = l.length := by
    rw [Nat.mul_comm]
    exact Nat.div_add_mod l.length c
  omega

/-! ### The spec-side partition `chunkList` -/

theorem chunkList_nil (c : ℕ) : chunkList [] c = [] := by
  rcases Nat.eq_zero_or_pos c with h | h
  · simp [chunkList, h]
  · have h2 : (c - 1) / c = 0 := Nat.div_eq_of_lt (by omega)
    simp [chunkList, h2]

theorem chunkList_length (s : List F) (c : ℕ) :
    (chunkList s c).length = (s.length + c - 1) / c := by
  simp [chunkList]

theorem num_chunks_split (n c : ℕ) (hc : 1 ≤ c) :
    (n + c - 1) / c = n / c + (if n % c = 0 then 0 else 1) := by
  have hd := Nat.div_add_mod n c
  have hr : n % c < c := Nat.mod_lt n (by omega)
  have hcpos : c > 0 := by omega
  by_cases h0 : n % c = 0
  · rw [if_pos h0]
    have he : n + c - 1 = c * (n / c) + (c - 1) := by omega
    have hlt : c - 1 < c := by omega
    rw [he, Nat.mul_add_div hcpos, Nat.div_eq_of_lt hlt]
  · rw [if_neg h0]
    have he : n + c - 1 = c * (n / c) + ((n % c - 1) + c) := by omega
    have hlt : n % c - 1 < c := by omega
    rw [he, Nat.mul_add_div hcpos, Nat.add_div_right _ hcpos, Nat.div_eq_of_lt hlt]

theorem ceil_div_succ (n c : ℕ) (hc : 1 ≤ c) (hn : 1 ≤ n) :
    (n + c - 1) / c = (n - 1) / c + 1 := by
  have he : n + c - 1 = (n - 1) + c := by omega
  rw [he, Nat.add_div_right _ (by omega)]

theorem chunkList_cons (s : List F) (c : ℕ) (hc : 1 ≤ c) (hs : s ≠ []) :
    chunkList s c = s.take c :: chunkList (s.drop c) c := by
  have hn : 1 ≤ s.length := List.length_pos.mpr hs
  rw [chunkList, chunkList, List.length_drop]
  have hm : (s.length + c - 1) / c = (s.length - 1) / c + 1 := ceil_div_succ _ _ hc hn
  have hm2 : (s.length - c + c - 1) / c = (s.length - 1) / c := by
    rcases le_or_lt c s.length with h | h
    · have he : s.length - c + c - 1 = s.length - 1 := by omega
      rw [he]
    · have h1 : s.length - c = 0 := by omega
      rw [h1]
      have h2 : 0 + c - 1 = c - 1 := by omega
      rw [h2, Nat.div_eq_of_lt (by omega), Nat.div_eq_of_lt (by omega)]
  rw [hm, hm2, List.range_succ_eq_map, List.map_cons, List.map_map]
  congr 1
  · simp
  · apply List.map_congr_left
    intro i _
    simp only [Function.comp]
    exact (drop_drop_take_chunk s c i).symm

theorem chunkList_flatten_aux (c : ℕ) (hc : 1 ≤ c) :
    ∀ (n : ℕ) (s : List F), s.length ≤ n → (chunkList s c).flatten = s := by
  intro n
  induction n with
  | zero =>
    intro s hsn
    have hnil : s = [] := List.length_eq_zero.mp (by omega)
    rw [hnil, chunkList_nil]
    rfl
  | succ n ih =>
    intro s hsn
    by_cases hs : s = []
    · rw [hs, chunkList_nil]
      rfl
    · have hlen : (s.drop c).length ≤ n := by
        rw [List.length_drop]
        have : 1 ≤ s.length := List.length_pos.mpr hs
        omega
      rw [chunkList_cons s c hc hs, List.flatten_cons, ih (s.drop c) hlen,
        List.take_append_drop]

theorem chunkList_flatten (s : List F) (c : ℕ) (hc : 1 ≤ c) :
    (chunkList s c).flatten = s :=
  chunkList_flatten_aux c hc s.length s le_rfl

theorem analyze_eq_map (s : List F) (c : ℕ) (hc : 1 ≤ c) :
    analyze_audio_rms s c
      = (chunkList s c).map (fun ch => rms_to_dbfs (calculate_rms ch)) := by
  by_cases hs : s.length = 0
  · have hnil : s = [] := List.length_eq_zero.mp hs
    rw [hnil, chunkList_nil]
    simp [analyze_audio_rms]
  · rw [analyze_audio_rms]
    simp only [if_neg (show ¬(s.length = 0 ∨ c = 0) by push_neg; exact ⟨hs, by omega⟩)]
    by_cases h0 : s.length % c = 0
    · have hrem : (chunksRemainder c s).isEmpty = true := by
        rw [List.isEmpty_iff, ← List.length_eq_zero, chunksRemainder_length c hc]
        exact h0
      rw [hrem]
      simp only [if_true]
      rw [chunksExact_eq c hc, chunkList, num_chunks_split s.length c hc, if_pos h0,
        add_zero, List.map_map]
    · have hrem : (chunksRemainder c s).isEmpty = false := by
        rw [List.isEmpty_eq_false_iff_exists_mem]
        have hlen : (chunksRemainder c s).length = s.length % c := chunksRemainder_length c hc s
        rcases List.exists_mem_of_length_pos (by omega : 0 < (chunksRemainder c s).length) with ⟨a, ha⟩
        exact ⟨a, ha⟩
      rw [hrem]
      simp only [Bool.false_eq_true, if_false]
      rw [chunksExact_eq c hc, chunkList, num_chunks_split s.length c hc, if_neg h0,
        List.range_succ, List.map_append, List.map_append, List.map_map]
      congr 1
      simp only [List.map_cons, List.map_nil]
      congr 2
      rw [chunksRemainder]
      rw [List.take_of_length_le]
      rw [List.length_drop]
      have hd : s.length / c * c + s.length % c = s.length := by
        rw [Nat.mul_comm]
        exact Nat.div_add_mod s.length c
      have : s.length % c < c := Nat.mod_lt s.length (by omega)
      omega

/-! ### Arithmetic and analytic helper lemmas -/

theorem ceil_div_rat (n c : ℕ) (hc : 1 ≤ c) :
    ⌈(n : ℚ) / (c : ℚ)⌉ = (((n + c - 1) / c : ℕ) : ℤ) := by
  have hc0 : 0 < c := hc
  have hcq : (0 : ℚ) < c := by exact_mod_cast hc0
  obtain ⟨m, hm⟩ : ∃ m, (n + c - 1) / c = m := ⟨_, rfl⟩
  have hd := Nat.div_add_mod (n + c - 1) c
  rw [hm] at hd ⊢
  have hmod : (n + c - 1) % c < c := Nat.mod_lt _ hc0
  have h1 : n ≤ c * m := by omega
  have h2 : c * m ≤ n + c - 1 := by omega
  have h1q : (n : ℚ) ≤ c * m := by exact_mod_cast h1
  have h2q : (c : ℚ) * m ≤ (n : ℚ) + c - 1 := by
    have h2n : (c * m : ℕ) + 1 ≤ n + c := by omega
    have hcast := (Nat.cast_le (α := ℚ)).mpr h2n
    push_cast at hcast
    linarith
  rw [Int.ceil_eq_iff]
  constructor
  · rw [lt_div_iff₀ hcq]
    push_cast
    have hx : ((m : ℚ) - 1) * c = c * m - c := by ring
    rw [hx]
    linarith
  · rw [div_le_iff₀ hcq]
    push_cast
    have hx : (m : ℚ) * c = c * m := by ring
    linarith [hx]

theorem rms_to_dbfs_ge_floor (x : F) :
    ∃ r : ℝ, rms_to_dbfs x = some r ∧ 20 * Real.logb 10 MIN_RMS ≤ r := by
  cases x with
  | none => exact ⟨_, rms_to_dbfs_none_eq, le_refl _⟩
  | some a =>
    refine ⟨_, rms_to_dbfs_some_eq a, ?_⟩
    have h1 : MIN_RMS ≤ max a MIN_RMS := le_max_right a MIN_RMS
    have h2 : Real.logb 10 MIN_RMS ≤ Real.logb 10 (max a MIN_RMS) :=
      (Real.logb_le_logb (by norm_num) MIN_RMS_pos
        (lt_of_lt_of_le MIN_RMS_pos h1)).mpr h1
    linarith

theorem rmsSpec_nonneg (l : List ℝ) : 0 ≤ rmsSpec l := by
  rw [rmsSpec]
  by_cases h : l.length = 0
  · rw [if_pos h]
  · rw [if_neg h]
    exact Real.sqrt_nonneg _

theorem rmsSpec_replicate_zero (m : ℕ) : rmsSpec (List.replicate m (0 : ℝ)) = 0 := by
  by_cases h : m = 0
  · rw [h]
    simp [rmsSpec]
  · rw [rmsSpec, List.length_replicate, if_neg h]
    have hmap : (List.replicate m (0 : ℝ)).map (fun s => s ^ 2)
        = List.replicate m (0 : ℝ) := by
      rw [List.map_replicate]
      norm_num
    rw [hmap, List.sum_replicate, smul_zero, zero_div, Real.sqrt_zero]

theorem rmsSpec_smul (l : List ℝ) (k : ℝ) (hk : 0 ≤ k) :
    rmsSpec (l.map (fun x => k * x)) = k * rmsSpec l := by
  by_cases h : l.length = 0
  · have hnil : l = [] := List.length_eq_zero.mp h
    rw [hnil]
    simp [rmsSpec]
  · rw [rmsSpec, rmsSpec, List.length_map, if_neg h, if_neg h]
    have hsum : ((l.map (fun x => k * x)).map (fun s => s ^ 2)).sum
        = k ^ 2 * (l.map (fun s => s ^ 2)).sum := by
      rw [List.map_map]
      have hfun : ((fun s => s ^ 2) ∘ fun x => k * x) = fun x => k ^ 2 * x ^ 2 := by
        funext x
        simp [mul_pow]
      rw [hfun, ← List.sum_map_mul_left]
    rw [hsum, mul_div_assoc, Real.sqrt_mul (by positivity), Real.sqrt_sq hk]

theorem dbfs_mono_core (r k : ℝ) (hr : 0 ≤ r) (hk : 1 < k) :
    20 * Real.logb 10 (max r MIN_RMS) < 20 * Real.logb 10 (max (k * r) MIN_RMS)
    ∨ (20 * Real.logb 10 (max (k * r) MIN_RMS) = 20 * Real.logb 10 (max r MIN_RMS)
       ∧ 20 * Real.logb 10 (max r MIN_RMS) = 20 * Real.logb 10 MIN_RMS) := by
  by_cases hcase : k * r ≤ MIN_RMS
  · right
    have hr2 : r ≤ MIN_RMS := by nlinarith
    rw [max_eq_right hcase, max_eq_right hr2]
    exact ⟨rfl, rfl⟩
  · left
    push_neg at hcase
    have hr_pos : 0 < r := by nlinarith [MIN_RMS_pos]
    have hmax1 : 0 < max r MIN_RMS := lt_of_lt_of_le MIN_RMS_pos (le_max_right _ _)
    have hlt : max r MIN_RMS < max (k * r) MIN_RMS := by
      rw [max_eq_left (le_of_lt hcase)]
      rcases le_or_lt r MIN_RMS with h | h
      · rw [max_eq_right h]
        exact hcase
      · rw [max_eq_left (le_of_lt h)]
        nlinarith
    have := Real.logb_lt_logb (by norm_num : (1 : ℝ) < 10) hmax1 hlt
    linarith

theorem rms_dbfs_zero_chunk (m : ℕ) :
    rms_to_dbfs (calculate_rms (List.replicate m (some (0 : ℝ))))
      = some (20 * Real.logb 10 MIN_RMS) := by
  have hrep : List.replicate m (some (0 : ℝ)) = (List.replicate m (0 : ℝ)).map some := by
    rw [List.map_replicate]
  rw [hrep, calculate_rms_map_some, rmsSpec_replicate_zero, rms_to_dbfs_some_eq,
    max_eq_right (le_of_lt MIN_RMS_pos)]

/-! ### The claims -/

/-- C1: for every sample buffer and every chunk size ≥ 1, the length of the
result sequence returned by `analyze_audio_rms` equals
`ceil(total_samples / chunk_size)` when `total_samples > 0`, and equals `0`
when `total_samples = 0`. -/
theorem C1_result_length (s : List F) (c : ℕ) (hc : 1 ≤ c) :
    (0 < s.length →
      ((analyze_audio_rms s c).length : ℤ) = ⌈(s.length : ℚ) / (c : ℚ)⌉)
    ∧ (s.length = 0 → (analyze_audio_rms s c).length = 0) := by
  have hlen : (analyze_audio_rms s c).length = (s.length + c - 1) / c := by
    rw [analyze_eq_map s c hc, List.length_map, chunkList_length]
  constructor
  · intro _
    rw [hlen, ceil_div_rat s.length c hc]
  · intro h0
    rw [hlen, h0]
    exact Nat.div_eq_of_lt (by omega)

theorem C1_result_length_witness :
    (0 < ([some 1, some 2, some 3] : List F).length →
      (((analyze_audio_rms [some 1, some 2, some 3] 2).length : ℤ)
        = ⌈(([some 1, some 2, some 3] : List F).length : ℚ) / (2 : ℚ)⌉))
    ∧ (([some 1, some 2, some 3] : List F).length = 0 →
      (analyze_audio_rms [some 1, some 2, some 3] 2).length = 0) :=
  C1_result_length [some 1, some 2, some 3] 2 (by norm_num)

/-- C2: if the sample buffer is empty or the chunk size is zero,
`analyze_audio_rms` returns the empty result sequence, without partitioning
and without dividing by zero. -/
theorem C2_edge_cases (s : List F) (c : ℕ) (h : s = [] ∨ c = 0) :
    analyze_audio_rms s c = [] := by
  rw [analyze_audio_rms]
  rcases h with h | h
  · rw [if_pos (Or.inl (by rw [h]; rfl))]
  · rw [if_pos (Or.inr h)]

theorem C2_edge_cases_witness :
    analyze_audio_rms [some 0.5] 0 = [] ∧ analyze_audio_rms [] 10 = [] :=
  ⟨C2_edge_cases [some 0.5] 0 (Or.inr rfl), C2_edge_cases [] 10 (Or.inl rfl)⟩

/-- C3: for every buffer and every chunk size ≥ 1, `analyze_audio_rms` is
total and produces the full result sequence — exactly one dBFS value per
chunk of the partition, never a partial prefix and never a failure. -/
theorem C3_total_full_result (s : List F) (c : ℕ) (hc : 1 ≤ c) :
    analyze_audio_rms s c
      = (chunkList s c).map (fun ch => rms_to_dbfs (calculate_rms ch))
    ∧ (analyze_audio_rms s c).length = (chunkList s c).length := by
  refine ⟨analyze_eq_map s c hc, ?_⟩
  rw [analyze_eq_map s c hc, List.length_map]

theorem C3_total_full_result_witness :
    analyze_audio_rms [some 1, none] 3
      = (chunkList [some 1, none] 3).map (fun ch => rms_to_dbfs (calculate_rms ch))
    ∧ (analyze_audio_rms [some 1, none] 3).length
      = (chunkList [some 1, none] 3).length :=
  C3_total_full_result [some 1, none] 3 (by norm_num)

/-- C4: for every list of `N` samples, `calculate_rms` returns `0.0` when
`N = 0` and otherwise `sqrt((1/N) * Σ sampleᵢ²)`; in this exact-real model
the wide accumulator and the narrowing after the square root are the
identity, so the source function coincides with the spec formula. -/
theorem C4_rms_formula (l : List ℝ) :
    calculate_rms (l.map some) = some (rmsSpec l)
    ∧ rmsSpec l = (if l.length = 0 then 0
        else Real.sqrt ((1 / (l.length : ℝ)) * (l.map (fun s => s ^ 2)).sum)) := by
  refine ⟨calculate_rms_map_some l, ?_⟩
  rw [rmsSpec]
  by_cases h : l.length = 0
  · rw [if_pos h, if_pos h]
  · rw [if_neg h, if_neg h, one_div, inv_mul_eq_div]

/-- C5: `rms_to_dbfs` returns `20 * log10(max(a, EPSILON))` with
`EPSILON = MIN_RMS = 1e-10`, and every sub-epsilon amplitude (not only
exact zero) is floored to the identical output value. -/
theorem C5_dbfs_formula (a : ℝ) :
    MIN_RMS = 1e-10
    ∧ rms_to_dbfs (some a) = some (20 * Real.logb 10 (max a MIN_RMS))
    ∧ (a ≤ MIN_RMS → rms_to_dbfs (some a) = some (20 * Real.logb 10 MIN_RMS)) := by
  refine ⟨rfl, rms_to_dbfs_some_eq a, fun h => ?_⟩
  rw [rms_to_dbfs_some_eq a, max_eq_right h]

theorem C5_dbfs_formula_witness :
    rms_to_dbfs (some 0) = some (20 * Real.logb 10 MIN_RMS) :=
  (C5_dbfs_formula 0).2.2 (le_of_lt MIN_RMS_pos)

/-- C6: for every non-empty buffer and chunk size ≥ 1, the partition
consists of `length / c` full chunks of exactly `c` samples followed by one
shorter chunk of `length mod c` samples when that remainder is non-zero;
no sample is padded, dropped or wrapped (the chunks concatenate back to the
buffer), and result element `i` is `rms_to_dbfs (calculate_rms chunk_i)`
with chunks taken in increasing order from offset 0. -/
theorem C6_partitioning (s : List F) (c : ℕ) (hs : s ≠ []) (hc : 1 ≤ c) :
    (∀ i, i < s.length / c → ((s.drop (i * c)).take c).length = c)
    ∧ (s.length % c ≠ 0 →
        (chunkList s c).length = s.length / c + 1
        ∧ ((s.drop (s.length / c * c)).take c).length = s.length % c)
    ∧ (s.length % c = 0 → (chunkList s c).length = s.length / c)
    ∧ (chunkList s c).flatten = s
    ∧ (∀ i, i < (chunkList s c).length →
        (analyze_audio_rms s c)[i]? =
          some (rms_to_dbfs (calculate_rms ((s.drop (i * c)).take c)))) := by
  have hd : s.length / c * c + s.length % c = s.length := by
    rw [Nat.mul_comm]
    exact Nat.div_add_mod s.length c
  have hmod : s.length % c < c := Nat.mod_lt s.length (by omega)
  refine ⟨?_, ?_, ?_, chunkList_flatten s c hc, ?_⟩
  · intro i hi
    have h1 : (i + 1) * c ≤ s.length / c * c := Nat.mul_le_mul_right c (by omega)
    have h2 : s.length / c * c ≤ s.length := Nat.div_mul_le_self s.length c
    have h3 : (i + 1) * c = i * c + c := by ring
    rw [List.length_take, List.length_drop]
    omega
  · intro h0
    constructor
    · rw [chunkList_length, num_chunks_split s.length c hc, if_neg h0]
    · rw [List.length_take, List.length_drop]
      omega
  · intro h0
    rw [chunkList_length, num_chunks_split s.length c hc, if_pos h0, add_zero]
  · intro i hi
    have him : i < (s.length + c - 1) / c := by
      rwa [chunkList_length] at hi
    rw [analyze_eq_map s c hc, List.getElem?_map, chunkList, List.getElem?_map,
      List.getElem?_range him]
    rfl

theorem C6_partitioning_witness :
    (∀ i, i < ([some 1, some 1, some 1] : List F).length / 2 →
      ((([some 1, some 1, some 1] : List F).drop (i * 2)).take 2).length = 2)
    ∧ (([some 1, some 1, some 1] : List F).length % 2 ≠ 0 →
        (chunkList [some 1, some 1, some 1] 2).length
          = ([some 1, some 1, some 1] : List F).length / 2 + 1
        ∧ ((([some 1, some 1, some 1] : List F).drop
            (([some 1, some 1, some 1] : List F).length / 2 * 2)).take 2).length
          = ([some 1, some 1, some 1] : List F).length % 2)
    ∧ (([some 1, some 1, some 1] : List F).length % 2 = 0 →
        (chunkList [some 1, some 1, some 1] 2).length
          = ([some 1, some 1, some 1] : List F).length / 2)
    ∧ (chunkList [some 1, some 1, some 1] 2).flatten = [some 1, some 1, some 1]
    ∧ (∀ i, i < (chunkList [some 1, some 1, some 1] 2).length →
        (analyze_audio_rms [some 1, some 1, some 1] 2)[i]? =
          some (rms_to_dbfs (calculate_rms
            ((([some 1, some 1, some 1] : List F).drop (i * 2)).take 2)))) :=
  C6_partitioning [some 1, some 1, some 1] 2 (by simp) (by norm_num)

/-- C7: the dBFS value of an all-zero chunk of any length is exactly the
floor `20 * log10(MIN_RMS) = -200`, not negative infinity; in particular
`analyze_audio_rms [0, 0, 0] 3 = [-200]`. -/
theorem C7_all_zero_floor (m : ℕ) :
    rms_to_dbfs (calculate_rms (List.replicate m (some (0 : ℝ))))
      = some (20 * Real.logb 10 MIN_RMS)
    ∧ 20 * Real.logb 10 MIN_RMS = -200
    ∧ analyze_audio_rms [some 0, some 0, some 0] 3 = [some (-200)] := by
  refine ⟨rms_dbfs_zero_chunk m, twenty_logb_MIN_RMS_eq, ?_⟩
  have hchunks : chunkList [some 0, some 0, some 0] 3 = [[some 0, some 0, some 0]] := by
    have hn : (([some (0:ℝ), some 0, some 0] : List F).length + 3 - 1) / 3 = 1 := by
      norm_num
    rw [chunkList, hn]
    rfl
  rw [analyze_eq_map _ 3 (by norm_num), hchunks, List.map_cons, List.map_nil]
  have hrep : ([some (0:ℝ), some 0, some 0] : List F) = List.replicate 3 (some (0:ℝ)) := rfl
  rw [hrep, rms_dbfs_zero_chunk 3, twenty_logb_MIN_RMS_eq]

/-- C8: scaling every sample of a chunk by a constant `k > 1` strictly
increases the dBFS value of the chunk, or keeps it equal when both values sit at
the clamp floor `20 * log10(MIN_RMS)`. -/
theorem C8_scaling_monotone (chunk : List ℝ) (k : ℝ) (hk : 1 < k) :
    ∃ r1 r2 : ℝ,
      rms_to_dbfs (calculate_rms (chunk.map some)) = some r1
      ∧ rms_to_dbfs (calculate_rms ((chunk.map (fun x => k * x)).map some)) = some r2
      ∧ (r1 < r2 ∨ (r1 = r2 ∧ r1 = 20 * Real.logb 10 MIN_RMS)) := by
  refine ⟨20 * Real.logb 10 (max (rmsSpec chunk) MIN_RMS),
    20 * Real.logb 10 (max (rmsSpec (chunk.map (fun x => k * x))) MIN_RMS),
    ?_, ?_, ?_⟩
  · rw [calculate_rms_map_some, rms_to_dbfs_some_eq]
  · rw [calculate_rms_map_some, rms_to_dbfs_some_eq]
  · rw [rmsSpec_smul chunk k (by linarith)]
    rcases dbfs_mono_core (rmsSpec chunk) k (rmsSpec_nonneg chunk) hk with h | ⟨h1, h2⟩
    · left
      exact h
    · right
      exact ⟨h1.symm, h2⟩

theorem C8_scaling_monotone_witness :
    ∃ r1 r2 : ℝ,
      rms_to_dbfs (calculate_rms (([1] : List ℝ).map some)) = some r1
      ∧ rms_to_dbfs (calculate_rms ((([1] : List ℝ).map (fun x => 2 * x)).map some))
        = some r2
      ∧ (r1 < r2 ∨ (r1 = r2 ∧ r1 = 20 * Real.logb 10 MIN_RMS)) :=
  C8_scaling_monotone [1] 2 (by norm_num)

/-- C9 counterexample: a slice holding a single NaN sample makes
`calculate_rms` return NaN, which is not a non-negative amplitude — the
total-domain (including NaN) coverage of the claim fails.  (The sum `0.0 + NaN*NaN` is NaN,
`NaN / 1` is NaN and `sqrt(NaN)` is NaN, exactly as IEEE-754 prescribes.) -/
theorem C9_nan_counterexample :
    calculate_rms [none] = none
    ∧ ¬∃ r : ℝ, calculate_rms [none] = some r ∧ 0 ≤ r := by
  have h : calculate_rms [none] = none := by
    rw [calculate_rms]
    simp [fmul, fadd, fdiv, fsqrt]
  refine ⟨h, ?_⟩
  rintro ⟨r, hr, -⟩
  rw [h] at hr
  exact Option.noConfusion hr

/-- C9 (amended): for every slice of finite real-valued (non-NaN) samples,
`calculate_rms` returns a non-negative amplitude; a NaN sample propagates
to a NaN result instead. -/
theorem C9_rms_nonneg (chunk : List ℝ) :
    ∃ r : ℝ, calculate_rms (chunk.map some) = some r ∧ 0 ≤ r :=
  ⟨rmsSpec chunk, calculate_rms_map_some chunk, rmsSpec_nonneg chunk⟩

/-- C10: `f32::max` returns the `MIN_RMS` floor when the RMS is NaN, so for
every input buffer (NaN samples included) and every chunk size, every
element of the result sequence is a real value of at least
`20 * log10(MIN_RMS)` — no NaN reaches the output. -/
theorem C10_floor_invariant (s : List F) (c : ℕ) :
    fmaxRust none (some MIN_RMS) = some MIN_RMS
    ∧ ∀ x ∈ analyze_audio_rms s c,
        ∃ r : ℝ, x = some r ∧ 20 * Real.logb 10 MIN_RMS ≤ r := by
  refine ⟨rfl, ?_⟩
  intro x hx
  rcases Nat.eq_zero_or_pos c with hc | hc
  · rw [hc] at hx
    rw [analyze_audio_rms] at hx
    rw [if_pos (Or.inr rfl)] at hx
    exact absurd hx (List.not_mem_nil x)
  · rw [analyze_eq_map s c hc] at hx
    rcases List.mem_map.mp hx with ⟨ch, -, hch⟩
    rcases rms_to_dbfs_ge_floor (calculate_rms ch) with ⟨r, hr, hge⟩
    exact ⟨r, by rw [← hch, hr], hge⟩

theorem C10_floor_invariant_witness :
    ∃ r : ℝ, rms_to_dbfs (calculate_rms [none]) = some r
      ∧ 20 * Real.logb 10 MIN_RMS ≤ r := by
  have hmem : rms_to_dbfs (calculate_rms [none]) ∈ analyze_audio_rms [none] 1 := by
    have h : analyze_audio_rms [none] 1
        = (chunkList [none] 1).map (fun ch => rms_to_dbfs (calculate_rms ch)) :=
      analyze_eq_map [none] 1 (by norm_num)
    rw [h]
    have hcl : chunkList [none] 1 = [[none]] := by
      rw [chunkList]
      rfl
    rw [hcl]
    exact List.mem_singleton.mpr rfl
  exact (C10_floor_invariant [none] 1).2 _ hmem
